import Mathlib

/-
Verification of the compressed trie in `skbio/util/trie.py`
(`_CompressedNode` and `CompressedTrie`).

The embedding is a direct translation of the Python source:
  - a node holds a key segment (`List Char`), an ordered list of attached
    values, and its children; the children dictionary is embedded as an
    association list kept in insertion order with Python `dict` semantics
    (assignment to a present key replaces in place, a new key is appended
    at the end, `get` returns the first match),
  - string indexing / slicing (`key[index]`, `key[index:]`) becomes
    `List.getD` / `List.drop`,
  - the scan loop computing the first mismatch index becomes the common
    prefix length `cpl`,
  - `prefix_map`, which can raise `IndexError` (on `self.values[0]` for a
    leaf with no values) and `KeyError` (on `mapping[None]`), returns an
    `Option`; `none` is the error outcome.
-/

set_option autoImplicit false

namespace SkbioTrie

mutual

/-- A node of the compressed trie, mirroring `_CompressedNode`: a key
segment, the values attached to keys terminating exactly here, and the
children dictionary. -/
inductive Node (α : Type) : Type where
  | mk : (key : List Char) → (values : List α) → (children : Children α) → Node α

/-- The children dictionary of a node, as an association list in
insertion order. -/
inductive Children (α : Type) : Type where
  | nil : Children α
  | cons : Char → Node α → Children α → Children α

end

namespace Node

def key {α : Type} : Node α → List Char
  | .mk k _ _ => k

def values {α : Type} : Node α → List α
  | .mk _ v _ => v

def children {α : Type} : Node α → Children α
  | .mk _ _ c => c

end Node

/-- Length of the longest common prefix of two strings; this is the value
of `index` after the scan loops in `insert` and `find` (after the
`index -= 1` adjustment in the split case of `insert`). -/
def cpl : List Char → List Char → Nat
  | a :: as, b :: bs => if a = b then cpl as bs + 1 else 0
  | _, _ => 0

mutual

/-- Translation of `_CompressedNode.insert`.  The four branches are, in
order: split (a mismatching character was found before either string ran
out), exact match (append the value), incoming key a strict prefix of the
node key (demote the node's content into a single child), and node key a
strict prefix of the incoming key (descend into, or create, the child
selected by the next character). -/
def Node.insert {α : Type} : Node α → List Char → α → Node α
  | .mk nkey nvals nch, k, v =>
    let p := cpl k nkey
    if p < min k.length nkey.length then
      Node.mk (nkey.take p) []
        (Children.cons (k.getD p 'a') (Node.mk (k.drop p) [v] Children.nil)
          (Children.cons (nkey.getD p 'a') (Node.mk (nkey.drop p) nvals nch)
            Children.nil))
    else if k.length = nkey.length then
      Node.mk nkey (nvals ++ [v]) nch
    else if k.length < nkey.length then
      Node.mk k [v]
        (Children.cons (nkey.getD p 'a') (Node.mk (nkey.drop p) nvals nch)
          Children.nil)
    else
      Node.mk nkey nvals (Children.insertGo nch (k.getD p 'a') (k.drop p) v)

/-- One pass over the children dictionary realising
`children.get(c)` followed by either the recursive insert (key present,
position kept) or `children[c] = new_node` (key absent, appended). -/
def Children.insertGo {α : Type} : Children α → Char → List Char → α → Children α
  | .nil, c, k, v => Children.cons c (Node.mk k [v] Children.nil) Children.nil
  | .cons c' n rest, c, k, v =>
    if c' = c then Children.cons c' (n.insert k v) rest
    else Children.cons c' n (Children.insertGo rest c k v)

end

mutual

/-- Translation of `_CompressedNode.find`. -/
def Node.find {α : Type} : Node α → List Char → List α
  | .mk nkey nvals nch, k =>
    if k.length = 0 then nvals
    else
      let p := cpl k nkey
      if p < min k.length nkey.length then []
      else if k.length ≤ nkey.length then nvals
      else Children.findIn nch (k.getD p 'a') (k.drop p)

/-- Realises `children.get(c)` followed by descending into the child, or
the final `return []` when the child is absent. -/
def Children.findIn {α : Type} : Children α → Char → List Char → List α
  | .nil, _, _ => []
  | .cons c' n rest, c, k =>
    if c' = c then n.find k else Children.findIn rest c k

end

mutual

/-- Translation of the `size` property: number of nodes in the subtree,
counting the node itself. -/
def Node.size {α : Type} : Node α → Nat
  | .mk _ _ nch => Children.sizeSum nch + 1

def Children.sizeSum {α : Type} : Children α → Nat
  | .nil => 0
  | .cons _ n rest => n.size + Children.sizeSum rest

end

mutual

/-- Translation of `__len__`: total number of values stored in the
subtree. -/
def Node.count {α : Type} : Node α → Nat
  | .mk _ nvals nch => Children.countSum nch + nvals.length

def Children.countSum {α : Type} : Children α → Nat
  | .nil => 0
  | .cons _ n rest => n.count + Children.countSum rest

end

/-- Python `dict` single-key assignment on an association list: an existing
key is overwritten in place, a new key is appended at the end. -/
def dictSet {κ β : Type} [DecidableEq κ] : List (κ × β) → κ → β → List (κ × β)
  | [], k, v => [(k, v)]
  | (k', v') :: rest, k, v =>
    if k' = k then (k, v) :: rest else (k', v') :: dictSet rest k v

/-- Python `dict.update`: assign every entry of `m` into `acc`, in order. -/
def dictUpdate {κ β : Type} [DecidableEq κ] (acc m : List (κ × β)) : List (κ × β) :=
  m.foldl (fun a e => dictSet a e.1 e.2) acc

/-- Python `dict` lookup on an association list. -/
def dictGet {κ β : Type} [DecidableEq κ] : List (κ × β) → κ → Option β
  | [], _ => none
  | (k', v') :: rest, k => if k' = k then some v' else dictGet rest k

/-- The scan in `prefix_map` selecting `key_largest` once the first entry
has been taken as the running best (the Python loop starts from `n = -1`,
so the first entry always replaces the initial state). -/
def selGo {κ β : Type} : List (κ × List β) → κ → Nat → κ
  | [], best, _ => best
  | (k, v) :: rest, best, n =>
    if n < v.length then selGo rest k v.length else selGo rest best n

/-- The `key_largest` scan of `prefix_map`: first entry whose value list is
strictly longer than every earlier one; `none` on an empty mapping (in
which case the Python code goes on to raise `KeyError` on
`mapping[None]`). -/
def selectLargest {κ β : Type} : List (κ × List β) → Option κ
  | [] => none
  | (k, v) :: rest => some (selGo rest k v.length)

/-- The in-place `mapping[key_largest].extend(self.values)`: append `vs`
to the value list of the first entry keyed `k`. -/
def extendAt {κ β : Type} [DecidableEq κ] : List (κ × List β) → κ → List β → List (κ × List β)
  | [], _, _ => []
  | (k', v') :: rest, k, vs =>
    if k' = k then (k', v' ++ vs) :: rest else (k', v') :: extendAt rest k vs

mutual

/-- Translation of the `prefix_map` property.  A leaf yields the single
entry from `values[0]` to `values[1:]` (`none` models the `IndexError`
when the leaf holds no values); an internal node merges the children's
maps with `dict.update` and extends the first longest entry with its own
values (`none` models the `KeyError` when the merged mapping is empty).
Children are iterated in insertion order, the deterministic order of
CPython 3.7+ dictionaries. -/
def Node.prefix_map {α : Type} [DecidableEq α] : Node α → Option (List (α × List α))
  | .mk _ nvals nch =>
    match nch with
    | .nil =>
      match nvals with
      | [] => none
      | v :: vs => some [(v, vs)]
    | .cons _ _ _ =>
      match Children.pmMerge nch [] with
      | none => none
      | some m =>
        match selectLargest m with
        | none => none
        | some k => some (extendAt m k nvals)

/-- The merge loop of `prefix_map`: `mapping.update(child.prefix_map)`
over the children, threading the accumulated mapping. -/
def Children.pmMerge {α : Type} [DecidableEq α] :
    Children α → List (α × List α) → Option (List (α × List α))
  | .nil, acc => some acc
  | .cons _ n rest, acc =>
    match n.prefix_map with
    | none => none
    | some m => Children.pmMerge rest (dictUpdate acc m)

end

/-- The root of a fresh `CompressedTrie`: `_CompressedNode("")`. -/
def emptyTrie (α : Type) : Node α := Node.mk [] [] Children.nil

/-
The source targets Python 2 (`future.utils.viewitems`, `__nonzero__`), and
its doctests record outputs obtained under CPython 2.7, where dictionary
iteration follows the hash table's slot order.  The following definitions
reproduce CPython 2.7's 64-bit string hash and its open-addressing table,
exactly enough to compute that iteration order deterministically; they are
used by `Node.pmPy2`, the variant of `prefix_map` that iterates
dictionaries in CPython 2.7 order, which is the order the doctest
(claim C1's fixed input) reflects.
-/

/-- Arithmetic modulus of CPython's 64-bit `long` hash values. -/
def M64 : Nat := 2 ^ 64

/-- The multiply-xor loop of CPython 2.7's `string_hash`. -/
def hashGo : List Char → Nat → Nat
  | [], x => x
  | c :: cs, x => hashGo cs (1000003 * x % M64 ^^^ c.toNat)

/-- CPython 2.7 64-bit string hash (bit pattern as a natural number):
start from the first byte shifted left by 7, fold the multiply-xor step
over all bytes, xor in the length, and map the reserved value -1 to -2. -/
def pyhash2 : List Char → Nat
  | [] => 0
  | c :: cs =>
    let x := hashGo (c :: cs) (c.toNat <<< 7 % M64)
    let x := x ^^^ (c :: cs).length
    if x = M64 - 1 then M64 - 2 else x

/-- CPython 2.7 string hash of a `String` key. -/
def pyhash2S (st : String) : Nat := pyhash2 st.toList

/-- CPython 2.7 string hash of a one-character key (the children
dictionaries are keyed by single-character strings). -/
def pyhash2C (c : Char) : Nat := pyhash2 [c]

/-- CPython 2.7 open-addressing probe: slots are `i % size` while the
unmasked index follows `i = 5*i + perturb + 1` (mod 2^64) with `perturb`
shifted right by 5 each step.  Returns the slot holding `k` or the first
free slot.  The probe sequence visits every slot, so the fuel is never
exhausted on a table with a free slot; it only makes the recursion
structural. -/
def probe {κ : Type} [DecidableEq κ] (t : List (Option κ)) (k : κ) :
    Nat → Nat → Nat → Nat
  | i, perturb, fuel =>
    let slot := i % t.length
    match t.getD slot none with
    | none => slot
    | some k' =>
      if k' = k then slot
      else
        match fuel with
        | 0 => slot
        | fuel' + 1 => probe t k ((5 * i + perturb + 1) % M64) (perturb / 2 ^ 5) fuel'

/-- Number of occupied slots (`ma_used`; with no deletions also
`ma_fill`). -/
def tableUsed {κ : Type} (t : List (Option κ)) : Nat :=
  t.countP Option.isSome

/-- Place key `k` into the table at the slot found by probing from
`hash k & mask`. -/
def tableInsert {κ : Type} [DecidableEq κ] (hash : κ → Nat) (t : List (Option κ))
    (k : κ) : List (Option κ) :=
  let h := hash k
  t.set (probe t k (h % t.length) h 1000) (some k)

/-- The `dictresize` target size: the smallest power of two strictly
greater than `minused`, starting from `PyDict_MINSIZE = 8`. -/
def growSize (minused : Nat) : Nat := growGo 8 minused 64
where
  growGo : Nat → Nat → Nat → Nat
    | sz, _, 0 => sz
    | sz, m, fuel + 1 => if sz ≤ m then growGo (2 * sz) m fuel else sz

/-- One CPython 2.7 dictionary assignment `d[k] = v` at the level of keys:
a present key changes nothing structurally; a new key is probed into a
slot, and if afterwards the fill reaches two thirds of the table the table
is resized to `growSize (4 * used)` and every key is reinserted in slot
order. -/
def py2Insert {κ : Type} [DecidableEq κ] (hash : κ → Nat) (t : List (Option κ))
    (k : κ) : List (Option κ) :=
  let h := hash k
  let slot := probe t k (h % t.length) h 1000
  if t.getD slot none = some k then t
  else
    let t' := t.set slot (some k)
    if 2 * t'.length ≤ 3 * tableUsed t' then
      (t'.filterMap id).foldl (tableInsert hash)
        (List.replicate (growSize (4 * tableUsed t')) none)
    else t'

/-- The iteration order of a CPython 2.7 dictionary whose keys were
assigned in the order given by `keys`: build the table by successive
assignments and scan the slots. -/
def py2Order {κ : Type} [DecidableEq κ] (hash : κ → Nat) (keys : List κ) : List κ :=
  (keys.foldl (py2Insert hash) (List.replicate 8 none)).filterMap id

/-- Re-list a mapping's entries in CPython 2.7 iteration order. -/
def reorderPy2 (m : List (String × List String)) : List (String × List String) :=
  (py2Order pyhash2S (m.map Prod.fst)).filterMap
    (fun k => (dictGet m k).map (fun v => (k, v)))

/-- The merge loop of `prefix_map` over the children's already-computed
maps, taken in the children dictionary's CPython 2.7 iteration order. -/
def mergePy2 : List (Option (List (String × List String))) →
    List (String × List String) → Option (List (String × List String))
  | [], acc => some acc
  | none :: _, _ => none
  | some m :: rest, acc => mergePy2 rest (dictUpdate acc m)

mutual

/-- The `prefix_map` property with every dictionary iterated in CPython
2.7 order (the order the module's doctests were recorded under): children
are visited in the children table's slot order, the `key_largest` scan
walks the merged mapping in its table's slot order, and the resulting
mapping is listed in that same order. -/
def Node.pmPy2 : Node String → Option (List (String × List String))
  | .mk _ nvals nch =>
    match nch with
    | .nil =>
      match nvals with
      | [] => none
      | v :: vs => some [(v, vs)]
    | .cons _ _ _ =>
      let results := Children.pmList nch
      let order := py2Order pyhash2C (results.map Prod.fst)
      match mergePy2 (order.filterMap (fun c => dictGet results c)) [] with
      | none => none
      | some m =>
        match selectLargest (reorderPy2 m) with
        | none => none
        | some k => some (reorderPy2 (extendAt m k nvals))

/-- The children's `prefix_map` results paired with their dictionary
keys, in insertion order (reordered by the caller). -/
def Children.pmList : Children String →
    List (Char × Option (List (String × List String)))
  | .nil => []
  | .cons c n rest => (c, n.pmPy2) :: Children.pmList rest

end

/-- `CompressedTrie(pair_list)`: insert the pairs in order into a fresh
trie. -/
def fromPairs {α : Type} (ps : List (List Char × α)) : Node α :=
  ps.foldl (fun t p => t.insert p.1 p.2) (emptyTrie α)

/-! Basic lemmas about the common prefix length. -/

theorem cpl_self (l : List Char) : cpl l l = l.length := by
  induction l with
  | nil => rfl
  | cons c cs ih => simp [cpl, ih]

theorem cpl_le_left (a b : List Char) : cpl a b ≤ a.length := by
  induction a generalizing b with
  | nil => simp [cpl]
  | cons c cs ih =>
    cases b with
    | nil => simp [cpl]
    | cons d ds =>
      by_cases h : c = d <;> simp [cpl, h]
      exact ih ds

theorem cpl_le_right (a b : List Char) : cpl a b ≤ b.length := by
  induction a generalizing b with
  | nil => simp [cpl]
  | cons c cs ih =>
    cases b with
    | nil => simp [cpl]
    | cons d ds =>
      by_cases h : c = d <;> simp [cpl, h]
      exact ih ds

theorem cpl_full_take_eq (a b : List Char) (h : cpl a b = a.length)
    (hle : a.length ≤ b.length) : b.take a.length = a := by
  induction a generalizing b with
  | nil => simp
  | cons c cs ih =>
    cases b with
    | nil => simp at hle
    | cons d ds =>
      by_cases hcd : c = d
      · simp only [cpl, if_pos hcd, List.length_cons, Nat.add_right_cancel_iff] at h
        simp only [List.length_cons, List.take_succ_cons, hcd]
        simp only [List.length_cons, Nat.add_le_add_iff_right] at hle
        rw [ih ds h hle]
      · simp [cpl, hcd] at h

/-! Counting lemmas: every insertion adds exactly one value and at most
two nodes. -/

mutual

theorem count_insert {α : Type} : ∀ (n : Node α) (k : List Char) (v : α),
    (n.insert k v).count = n.count + 1
  | .mk nkey nvals nch, k, v => by
    simp only [Node.insert]
    by_cases h1 : cpl k nkey < min k.length nkey.length
    · rw [if_pos h1]
      simp [Node.count, Children.countSum]
      omega
    · rw [if_neg h1]
      by_cases h2 : k.length = nkey.length
      · rw [if_pos h2]
        simp [Node.count, Children.countSum]
        omega
      · rw [if_neg h2]
        by_cases h3 : k.length < nkey.length
        · rw [if_pos h3]
          simp [Node.count, Children.countSum]
        · rw [if_neg h3]
          simp only [Node.count]
          rw [countSum_insertGo nch (k.getD (cpl k nkey) 'a') (k.drop (cpl k nkey)) v]
          omega

theorem countSum_insertGo {α : Type} : ∀ (ch : Children α) (c : Char) (k : List Char) (v : α),
    (Children.insertGo ch c k v).countSum = ch.countSum + 1
  | .nil, c, k, v => by
    simp [Children.insertGo, Children.countSum, Node.count]
  | .cons c' n rest, c, k, v => by
    simp only [Children.insertGo]
    by_cases h : c' = c
    · rw [if_pos h]
      simp only [Children.countSum]
      rw [count_insert n k v]
      omega
    · rw [if_neg h]
      simp only [Children.countSum]
      rw [countSum_insertGo rest c k v]
      omega

end

mutual

theorem size_insert_le {α : Type} : ∀ (n : Node α) (k : List Char) (v : α),
    (n.insert k v).size ≤ n.size + 2
  | .mk nkey nvals nch, k, v => by
    simp only [Node.insert]
    by_cases h1 : cpl k nkey < min k.length nkey.length
    · rw [if_pos h1]
      simp [Node.size, Children.sizeSum]
      omega
    · rw [if_neg h1]
      by_cases h2 : k.length = nkey.length
      · rw [if_pos h2]
        simp [Node.size, Children.sizeSum]
      · rw [if_neg h2]
        by_cases h3 : k.length < nkey.length
        · rw [if_pos h3]
          simp [Node.size, Children.sizeSum]
        · rw [if_neg h3]
          simp only [Node.size]
          have h := sizeSum_insertGo_le nch (k.getD (cpl k nkey) 'a') (k.drop (cpl k nkey)) v
          omega

theorem sizeSum_insertGo_le {α : Type} : ∀ (ch : Children α) (c : Char) (k : List Char) (v : α),
    (Children.insertGo ch c k v).sizeSum ≤ ch.sizeSum + 2
  | .nil, c, k, v => by
    simp [Children.insertGo, Children.sizeSum, Node.size]
  | .cons c' n rest, c, k, v => by
    simp only [Children.insertGo]
    by_cases h : c' = c
    · rw [if_pos h]
      simp only [Children.sizeSum]
      have hn := size_insert_le n k v
      omega
    · rw [if_neg h]
      simp only [Children.sizeSum]
      have hr := sizeSum_insertGo_le rest c k v
      omega

end

theorem size_pos {α : Type} (n : Node α) : 1 ≤ n.size := by
  cases n with
  | mk nkey nvals nch => simp [Node.size]

theorem foldl_insert_count_size {α : Type} (ps : List (List Char × α)) (t : Node α) :
    (ps.foldl (fun a p => a.insert p.1 p.2) t).count = t.count + ps.length ∧
    (ps.foldl (fun a p => a.insert p.1 p.2) t).size ≤ t.size + 2 * ps.length := by
  induction ps generalizing t with
  | nil => simp
  | cons p ps ih =>
    have h := ih (t.insert p.1 p.2)
    have hc := count_insert t p.1 p.2
    have hs := size_insert_le t p.1 p.2
    simp only [List.foldl_cons, List.length_cons]
    constructor
    · rw [h.1, hc]
      omega
    · have := h.2
      omega

/-! The fixed input sequence of the module doctest (claim C1). -/

def c1Pairs : List (List Char × String) :=
  [("ab".toList, "0"), ("abababa".toList, "1"), ("abab".toList, "2"),
   ("baba".toList, "3"), ("ababaa".toList, "4"), ("a".toList, "5"),
   ("abababa".toList, "6"), ("bab".toList, "7"), ("babba".toList, "8")]

/-- Claim C1: inserting the fixed pair sequence into a fresh trie and
taking the prefix map (with dictionaries iterated in CPython 2.7 order,
under which the module's doctest was recorded) yields exactly 4 groups,
with "1" mapped to exactly the values "6", "2", "0", "5" in a fixed
order, "8" mapped to the single value "7", and "3" and "4" mapped to
empty lists. -/
theorem c1_prefix_map_grouping :
    (fromPairs c1Pairs).pmPy2 =
      some [("1", ["6", "2", "0", "5"]), ("8", ["7"]), ("3", []), ("4", [])] ∧
    ((fromPairs c1Pairs).pmPy2.map List.length) = some 4 ∧
    ((fromPairs c1Pairs).pmPy2.bind (fun m => dictGet m "1")) = some ["6", "2", "0", "5"] ∧
    ((fromPairs c1Pairs).pmPy2.bind (fun m => dictGet m "8")) = some ["7"] ∧
    ((fromPairs c1Pairs).pmPy2.bind (fun m => dictGet m "3")) = some [] ∧
    ((fromPairs c1Pairs).pmPy2.bind (fun m => dictGet m "4")) = some [] := by
  decide

/-- Counterexample to claim C2: after the two insertions ("ab","0") and
("ac","1") into a fresh trie (so N = 2), the second insertion splits the
node, giving 4 nodes, and 4 exceeds N + 1 = 3; the claimed bound
`size <= N + 1` fails. -/
theorem c2_size_bound_counterexample :
    (fromPairs [("ab".toList, "0"), ("ac".toList, "1")]).count = 2 ∧
    (fromPairs [("ab".toList, "0"), ("ac".toList, "1")]).size = 4 ∧
    ¬ (fromPairs [("ab".toList, "0"), ("ac".toList, "1")]).size ≤
        [("ab".toList, "0"), ("ac".toList, "1")].length + 1 := by
  decide

/-- Claim C2 as amended: after inserting N pairs into a fresh trie
`count` equals N and `size` lies between 1 and 2N + 1 (a split adds two
nodes, so the claimed N + 1 bound must weaken to 2N + 1). -/
theorem c2_count_and_size_bounds {α : Type} (ps : List (List Char × α)) :
    (fromPairs ps).count = ps.length ∧
    1 ≤ (fromPairs ps).size ∧
    (fromPairs ps).size ≤ 2 * ps.length + 1 := by
  have h := foldl_insert_count_size ps (emptyTrie α)
  refine ⟨?_, size_pos _, ?_⟩
  · rw [fromPairs, h.1]
    simp [emptyTrie, Node.count, Children.countSum]
  · have := h.2
    have he : (emptyTrie α).size = 1 := by simp [emptyTrie, Node.size, Children.sizeSum]
    rw [fromPairs]
    omega

/-- Counterexample to claim C3: on the freshly created empty trie the
code does not return an empty prefix map; `prefix_map` reaches
`self.values[0]` on the empty root's empty value list and raises
`IndexError` (modelled by `none`). -/
theorem c3_empty_prefix_map_counterexample :
    (emptyTrie String).prefix_map = none ∧
    (emptyTrie String).prefix_map ≠ some [] := by
  decide

/-- Claim C3 as amended: a fresh empty trie has `size` 1 and `count` 0,
and `find` returns the empty list for every key; but `prefix_map` raises
an error (the leaf branch indexes `values[0]` of the valueless root)
instead of returning an empty mapping. -/
theorem c3_empty_trie_behavior :
    (emptyTrie String).size = 1 ∧ (emptyTrie String).count = 0 ∧
    (∀ k : List Char, (emptyTrie String).find k = []) ∧
    (emptyTrie String).prefix_map = none := by
  refine ⟨by decide, by decide, ?_, by decide⟩
  intro k
  cases k with
  | nil => rfl
  | cons c ks => simp [emptyTrie, Node.find, cpl, Children.findIn]

/-- Counterexample to claim C4: in the trie built from the single pair
("ab","0"), the key "a" is consumed as a strict prefix of the node
segment "ab" and `find` returns the non-empty list ["0"], although no
value was ever inserted under the key "a" (the only inserted key is
"ab"). -/
theorem c4_strict_prefix_counterexample :
    (fromPairs [("ab".toList, "0")]).find "a".toList = ["0"] ∧
    "a".toList ≠ "ab".toList := by
  decide

/-- Claim C4 as amended: when `find`'s descent fully consumes the key as
a strict prefix of a node's key segment it returns that node's values;
but that list holds the values attached to the node's full segment, so it
can be non-empty even though no value was inserted under exactly the
searched key. -/
theorem c4_strict_prefix_find {α : Type} (nkey : List Char) (vals : List α)
    (ch : Children α) (k : List Char) (hp : cpl k nkey = k.length)
    (hlt : k.length < nkey.length) :
    (Node.mk nkey vals ch).find k = vals := by
  simp only [Node.find, hp]
  have hmin : min k.length nkey.length = k.length := Nat.min_eq_left hlt.le
  rw [hmin]
  by_cases h0 : k.length = 0
  · rw [if_pos h0]
  · rw [if_neg h0, if_neg (lt_irrefl k.length), if_pos hlt.le]

/-- Witness for `c4_strict_prefix_find` at the node with segment "ab",
values ["0"] and no children, searched with key "a". -/
theorem c4_strict_prefix_find_witness :
    cpl "a".toList "ab".toList = "a".toList.length ∧
    "a".toList.length < "ab".toList.length ∧
    (Node.mk "ab".toList ["0"] Children.nil).find "a".toList = ["0"] :=
  ⟨by decide, by decide,
    c4_strict_prefix_find "ab".toList ["0"] Children.nil "a".toList (by decide) (by decide)⟩

/-! Round-trip (claim C6): after `insert k v`, `find k` contains `v`. -/

theorem cpl_take (a b : List Char) : cpl a (b.take (cpl a b)) = cpl a b := by
  induction a generalizing b with
  | nil => cases b <;> simp [cpl]
  | cons c cs ih =>
    cases b with
    | nil => simp [cpl]
    | cons d ds =>
      by_cases h : c = d
      · simp only [cpl, if_pos h, List.take_succ_cons]
        simp [cpl, if_pos h, ih ds]
      · simp [cpl, h]

theorem eq_of_cpl_full (a b : List Char) (h : cpl a b = a.length)
    (hlen : a.length = b.length) : a = b := by
  have := cpl_full_take_eq a b h hlen.le
  rw [hlen, List.take_length] at this
  exact this.symm

theorem cpl_le_min (a b : List Char) : cpl a b ≤ min a.length b.length :=
  le_min (cpl_le_left a b) (cpl_le_right a b)

theorem find_key_self {α : Type} (nkey : List Char) (vals : List α) (ch : Children α) :
    (Node.mk nkey vals ch).find nkey = vals := by
  simp only [Node.find, cpl_self]
  by_cases h0 : nkey.length = 0
  · rw [if_pos h0]
  · rw [if_neg h0, if_neg (by omega), if_pos le_rfl]

mutual

theorem insert_find_mem {α : Type} : ∀ (n : Node α) (k : List Char) (v : α),
    v ∈ (n.insert k v).find k
  | .mk nkey nvals nch, k, v => by
    simp only [Node.insert]
    by_cases h1 : cpl k nkey < min k.length nkey.length
    · rw [if_pos h1]
      have hpk : cpl k nkey < k.length := lt_of_lt_of_le h1 (Nat.min_le_left _ _)
      simp only [Node.find]
      rw [if_neg (by omega : ¬ k.length = 0)]
      rw [cpl_take]
      rw [if_neg (by simp only [List.length_take]; omega)]
      rw [if_neg (by simp only [List.length_take]; omega)]
      simp only [Children.findIn, if_pos rfl]
      rw [find_key_self]
      simp
    · rw [if_neg h1]
      have hple := cpl_le_min k nkey
      have hpeq : cpl k nkey = min k.length nkey.length := le_antisymm hple (by omega)
      by_cases h2 : k.length = nkey.length
      · rw [if_pos h2]
        have hk : k = nkey := by
          apply eq_of_cpl_full _ _ _ h2
          omega
        rw [hk, find_key_self]
        simp
      · rw [if_neg h2]
        by_cases h3 : k.length < nkey.length
        · rw [if_pos h3]
          rw [find_key_self]
          simp
        · rw [if_neg h3]
          have hlt : nkey.length < k.length := by omega
          simp only [Node.find]
          rw [if_neg (by omega : ¬ k.length = 0)]
          rw [if_neg (by omega), if_neg (by omega)]
          exact insertGo_findIn_mem nch (k.getD (cpl k nkey) 'a') (k.drop (cpl k nkey)) v

theorem insertGo_findIn_mem {α : Type} : ∀ (ch : Children α) (c : Char) (k : List Char) (v : α),
    v ∈ Children.findIn (Children.insertGo ch c k v) c k
  | .nil, c, k, v => by
    simp only [Children.insertGo, Children.findIn, if_pos rfl]
    rw [find_key_self]
    simp
  | .cons c' n rest, c, k, v => by
    simp only [Children.insertGo]
    by_cases h : c' = c
    · rw [if_pos h]
      simp only [Children.findIn, if_pos h]
      exact insert_find_mem n k v
    · rw [if_neg h]
      simp only [Children.findIn, if_neg h]
      exact insertGo_findIn_mem rest c k v

end

/-! Structure of `prefix_map` (claim C5): the `key_largest` scan picks
exactly the first entry of maximal value-list length, and the extend step
changes exactly that entry. -/

theorem selGo_post {κ β : Type} (post : List (κ × List β)) (best : κ) (n : Nat)
    (h : ∀ e ∈ post, (e.2 : List β).length ≤ n) : selGo post best n = best := by
  induction post with
  | nil => rfl
  | cons e rest ih =>
    obtain ⟨ke, ve⟩ := e
    have hv : ve.length ≤ n := h (ke, ve) (List.mem_cons_self _ _)
    simp only [selGo, if_neg (by omega : ¬ n < ve.length)]
    exact ih (fun e he => h e (List.mem_cons_of_mem _ he))

theorem selGo_pre {κ β : Type} : ∀ (pre : List (κ × List β)) (k : κ) (v : List β)
    (post : List (κ × List β)) (best : κ) (n : Nat), n < v.length →
    (∀ e ∈ pre, (e.2 : List β).length < v.length) →
    (∀ e ∈ post, (e.2 : List β).length ≤ v.length) →
    selGo (pre ++ (k, v) :: post) best n = k
  | [], k, v, post, best, n, hn, _, hpost => by
    simp only [List.nil_append, selGo, if_pos hn]
    exact selGo_post post k v.length hpost
  | (ke, ve) :: pre, k, v, post, best, n, hn, hpre, hpost => by
    have hv : ve.length < v.length := hpre (ke, ve) (List.mem_cons_self _ _)
    have hpre' : ∀ e ∈ pre, (e.2 : List β).length < v.length :=
      fun e he => hpre e (List.mem_cons_of_mem _ he)
    simp only [List.cons_append, selGo]
    by_cases h : n < ve.length
    · rw [if_pos h]
      exact selGo_pre pre k v post ke ve.length hv hpre' hpost
    · rw [if_neg h]
      exact selGo_pre pre k v post best n hn hpre' hpost

theorem selectLargest_firstMax {κ β : Type} (pre : List (κ × List β)) (k : κ)
    (v : List β) (post : List (κ × List β))
    (hpre : ∀ e ∈ pre, (e.2 : List β).length < v.length)
    (hpost : ∀ e ∈ post, (e.2 : List β).length ≤ v.length) :
    selectLargest (pre ++ (k, v) :: post) = some k := by
  cases pre with
  | nil =>
    simp only [List.nil_append, selectLargest]
    rw [selGo_post post k v.length hpost]
  | cons e pre' =>
    obtain ⟨ke, ve⟩ := e
    simp only [List.cons_append, selectLargest]
    rw [selGo_pre pre' k v post ke ve.length
      (hpre (ke, ve) (List.mem_cons_self _ _))
      (fun e he => hpre e (List.mem_cons_of_mem _ he)) hpost]

theorem extendAt_eq {κ β : Type} [DecidableEq κ] (pre : List (κ × List β)) (k : κ)
    (v : List β) (post : List (κ × List β)) (vs : List β)
    (hk : ∀ e ∈ pre, (e.1 : κ) ≠ k) :
    extendAt (pre ++ (k, v) :: post) k vs = pre ++ (k, v ++ vs) :: post := by
  induction pre with
  | nil => simp [extendAt]
  | cons e pre ih =>
    obtain ⟨ke, ve⟩ := e
    have hne : ke ≠ k := hk (ke, ve) (List.mem_cons_self _ _)
    simp only [List.cons_append, extendAt, if_neg hne, List.append_eq]
    rw [ih (fun e he => hk e (List.mem_cons_of_mem _ he))]

theorem mem_keys_dictSet {κ β : Type} [DecidableEq κ] (m : List (κ × β)) (k : κ)
    (v : β) (a : κ) :
    a ∈ (dictSet m k v).map Prod.fst ↔ a ∈ m.map Prod.fst ∨ a = k := by
  induction m with
  | nil => simp [dictSet]
  | cons e rest ih =>
    obtain ⟨ke, ve⟩ := e
    by_cases h : ke = k
    · subst h
      simp [dictSet]
      tauto
    · simp only [dictSet, if_neg h, List.map_cons, List.mem_cons, ih]
      tauto

theorem keys_dictSet_nodup {κ β : Type} [DecidableEq κ] (m : List (κ × β)) (k : κ)
    (v : β) (h : (m.map Prod.fst).Nodup) : ((dictSet m k v).map Prod.fst).Nodup := by
  induction m with
  | nil => simp [dictSet]
  | cons e rest ih =>
    obtain ⟨ke, ve⟩ := e
    simp only [List.map_cons, List.nodup_cons] at h
    by_cases hke : ke = k
    · subst hke
      have hset : dictSet ((ke, ve) :: rest) ke v = (ke, v) :: rest := by
        simp [dictSet]
      rw [hset]
      simp only [List.map_cons, List.nodup_cons]
      exact h
    · simp only [dictSet, if_neg hke, List.map_cons, List.nodup_cons,
        mem_keys_dictSet]
      refine ⟨?_, ih h.2⟩
      rintro (hin | rfl)
      · exact h.1 hin
      · exact hke rfl

theorem keys_dictUpdate_nodup {κ β : Type} [DecidableEq κ] (m acc : List (κ × β))
    (h : (acc.map Prod.fst).Nodup) : ((dictUpdate acc m).map Prod.fst).Nodup := by
  induction m generalizing acc with
  | nil => exact h
  | cons e rest ih =>
    simp only [dictUpdate, List.foldl_cons]
    exact ih (dictSet acc e.1 e.2) (keys_dictSet_nodup acc e.1 e.2 h)

theorem pmMerge_keys_nodup {α : Type} [DecidableEq α] :
    ∀ (ch : Children α) (acc m : List (α × List α)),
    Children.pmMerge ch acc = some m → (acc.map Prod.fst).Nodup →
    (m.map Prod.fst).Nodup
  | .nil, acc, m => by
    simp only [Children.pmMerge, Option.some.injEq]
    rintro rfl h
    exact h
  | .cons c n rest, acc, m => by
    simp only [Children.pmMerge]
    cases hpm : n.prefix_map with
    | none => simp
    | some m' =>
      intro h hnd
      exact pmMerge_keys_nodup rest (dictUpdate acc m') m h
        (keys_dictUpdate_nodup m' acc hnd)

/-- Claim C5: for a leaf the prefix map is the single entry from
`values[0]` to `values[1:]`; for an internal node, whenever the merge of
the children's prefix maps decomposes around an entry `(k, v)` that is
the first entry of maximal value-list length (all earlier entries
strictly shorter, all later ones no longer), the node's prefix map is
that merge with the node's own values appended, in order, onto exactly
that entry, every other entry unchanged and in place. -/
theorem c5_prefix_map_structure {α : Type} [DecidableEq α] (nkey : List Char)
    (vals : List α) :
    (∀ (v : α) (vs : List α),
      (Node.mk nkey (v :: vs) Children.nil).prefix_map = some [(v, vs)]) ∧
    (∀ (c : Char) (child : Node α) (rest : Children α)
      (pre post : List (α × List α)) (k : α) (v : List α),
      Children.pmMerge (Children.cons c child rest) [] = some (pre ++ (k, v) :: post) →
      (∀ e ∈ pre, (e.2 : List α).length < v.length) →
      (∀ e ∈ post, (e.2 : List α).length ≤ v.length) →
      (Node.mk nkey vals (Children.cons c child rest)).prefix_map =
        some (pre ++ (k, v ++ vals) :: post)) := by
  constructor
  · intro v vs
    rfl
  · intro c child rest pre post k v hm hpre hpost
    have hnd := pmMerge_keys_nodup (Children.cons c child rest) [] _ hm (by simp)
    simp only [List.map_append, List.map_cons, List.nodup_append, List.nodup_cons,
      List.mem_cons] at hnd
    have hne : ∀ e ∈ pre, (e.1 : α) ≠ k := by
      intro e he hek
      exact hnd.2.2 (List.mem_map_of_mem Prod.fst he)
        (by rw [hek]; exact List.mem_cons_self _ _)
    simp only [Node.prefix_map, hm, selectLargest_firstMax pre k v post hpre hpost]
    rw [extendAt_eq pre k v post vals hne]

/-- Witness for `c5_prefix_map_structure`: the leaf part at a one-value
leaf, and the internal part at a root holding "z" above a single leaf
child holding "x" and "y" (merged map `[("x", ["y"])]`, whose only entry
is the first maximum, so "z" is appended to it). -/
theorem c5_prefix_map_structure_witness :
    (Node.mk ([] : List Char) (["q"] : List String) Children.nil).prefix_map =
      some [("q", [])] ∧
    (Node.mk ([] : List Char) ["z"]
        (Children.cons 'a' (Node.mk ['a'] ["x", "y"] Children.nil)
          Children.nil)).prefix_map = some [("x", ["y", "z"])] :=
  ⟨(c5_prefix_map_structure [] (["z"] : List String)).1 "q" [],
   (c5_prefix_map_structure [] ["z"]).2 'a' (Node.mk ['a'] ["x", "y"] Children.nil)
     Children.nil [] [] "x" ["y"] (by decide) (by simp) (by simp)⟩

/-- Claim C6: for every trie (in particular every reachable one), every
key and every value, `find k` after `insert k v` contains `v` among its
results. -/
theorem c6_insert_find_roundtrip {α : Type} (n : Node α) (k : List Char) (v : α) :
    v ∈ (n.insert k v).find k :=
  insert_find_mem n k v

/-! The children-dictionary invariant (claim C8): every child is stored
under the first character of its key segment and no two children share a
first character. -/

/-- Membership of a character among the children dictionary's keys. -/
def Children.hasChar {α : Type} : Children α → Char → Bool
  | .nil, _ => false
  | .cons c' _ rest, c => c' == c || Children.hasChar rest c

mutual

/-- The claim C8 invariant, recursively at every node: each child is
stored under the first character of its nonempty key segment, the stored
characters are pairwise distinct, and every child satisfies the same. -/
def Node.wf {α : Type} : Node α → Bool
  | .mk _ _ nch => Children.wfGo nch

def Children.wfGo {α : Type} : Children α → Bool
  | .nil => true
  | .cons c n rest =>
    decide (n.key.head? = some c) && !(Children.hasChar rest c) &&
      n.wf && Children.wfGo rest

end

theorem head?_drop_getD (l : List Char) (p : Nat) (h : p < l.length) :
    (l.drop p).head? = some (l.getD p 'a') := by
  induction l generalizing p with
  | nil => simp at h
  | cons c cs ih =>
    cases p with
    | zero => simp
    | succ q =>
      simp only [List.drop_succ_cons, List.getD_cons_succ]
      exact ih q (by simpa using h)

theorem head?_take (l : List Char) (p : Nat) (h : 1 ≤ p) :
    (l.take p).head? = l.head? := by
  cases l with
  | nil => simp
  | cons c cs =>
    cases p with
    | zero => omega
    | succ q => simp

theorem cpl_mismatch_ne (a b : List Char) (h : cpl a b < min a.length b.length) :
    a.getD (cpl a b) 'a' ≠ b.getD (cpl a b) 'a' := by
  induction a generalizing b with
  | nil => simp [cpl] at h
  | cons c cs ih =>
    cases b with
    | nil => simp [cpl] at h
    | cons d ds =>
      by_cases hcd : c = d
      · simp only [cpl, if_pos hcd, List.getD_cons_succ]
        apply ih
        simp only [cpl, if_pos hcd, List.length_cons] at h
        omega
      · simp [cpl, hcd]

theorem cpl_pos_head (a b : List Char) (h : 1 ≤ cpl a b) : a.head? = b.head? := by
  cases a with
  | nil => simp [cpl] at h
  | cons c cs =>
    cases b with
    | nil => simp [cpl] at h
    | cons d ds =>
      by_cases hcd : c = d
      · simp [hcd]
      · simp [cpl, hcd] at h

theorem cpl_pos_of_head_eq (a b : List Char) (c : Char) (ha : a.head? = some c)
    (hb : b.head? = some c) : 1 ≤ cpl a b := by
  cases a with
  | nil => simp at ha
  | cons x xs =>
    cases b with
    | nil => simp at hb
    | cons y ys =>
      simp only [List.head?_cons, Option.some.injEq] at ha hb
      simp [cpl, ha, hb]

theorem hasChar_insertGo {α : Type} :
    ∀ (ch : Children α) (c : Char) (k : List Char) (v : α) (c' : Char),
    Children.hasChar (Children.insertGo ch c k v) c' =
      (Children.hasChar ch c' || (c == c'))
  | .nil, c, k, v, c' => by
    simp [Children.insertGo, Children.hasChar]
  | .cons c0 n rest, c, k, v, c' => by
    simp only [Children.insertGo]
    by_cases h : c0 = c
    · subst h
      simp only [if_pos rfl, Children.hasChar]
      cases hc : c0 == c' <;> simp [hc]
    · rw [if_neg h]
      simp only [Children.hasChar, hasChar_insertGo rest c k v c']
      cases hc : c0 == c' <;> simp [hc, Bool.or_assoc]

mutual

theorem wf_insert {α : Type} : ∀ (n : Node α) (k : List Char) (v : α),
    n.wf = true → (n.key = [] ∨ 1 ≤ cpl k n.key) →
    (n.insert k v).wf = true ∧
      (1 ≤ cpl k n.key → (n.insert k v).key.head? = n.key.head?) ∧
      (n.key = [] → (n.insert k v).key = [])
  | .mk nkey nvals nch, k, v => by
    intro hwf hk
    simp only [Node.key, Node.wf] at hwf hk ⊢
    have hgo : Children.wfGo nch = true := hwf
    simp only [Node.insert]
    by_cases h1 : cpl k nkey < min k.length nkey.length
    · rw [if_pos h1]
      have hpk : cpl k nkey < k.length := lt_of_lt_of_le h1 (Nat.min_le_left _ _)
      have hpn : cpl k nkey < nkey.length := lt_of_lt_of_le h1 (Nat.min_le_right _ _)
      have hne : nkey.getD (cpl k nkey) 'a' ≠ k.getD (cpl k nkey) 'a' :=
        fun he => cpl_mismatch_ne k nkey h1 he.symm
      refine ⟨?_, ?_, ?_⟩
      · simp [Node.wf, Children.wfGo, Children.hasChar, Node.key,
          head?_drop_getD k _ hpk, head?_drop_getD nkey _ hpn, hgo]
        simpa [List.getD] using hne
      · intro hpos
        simp only [Node.key]
        exact head?_take nkey _ hpos
      · intro hnil
        rw [hnil] at hpn
        simp at hpn
    · rw [if_neg h1]
      by_cases h2 : k.length = nkey.length
      · rw [if_pos h2]
        exact ⟨hgo, fun _ => rfl, fun h => h⟩
      · rw [if_neg h2]
        by_cases h3 : k.length < nkey.length
        · rw [if_pos h3]
          have hple := cpl_le_min k nkey
          have hpeq : cpl k nkey = k.length := by omega
          have hnn : nkey ≠ [] := by
            intro h
            rw [h] at h3
            simp at h3
          have hpos : 1 ≤ cpl k nkey := hk.resolve_left hnn
          refine ⟨?_, ?_, ?_⟩
          · simp [Node.wf, Children.wfGo, Children.hasChar, Node.key,
              head?_drop_getD nkey _ (show cpl k nkey < nkey.length by omega), hgo]
          · intro hp
            simp only [Node.key]
            exact cpl_pos_head k nkey hp
          · intro hnil
            exact absurd hnil hnn
        · rw [if_neg h3]
          refine ⟨?_, fun _ => rfl, fun h => h⟩
          have hple := cpl_le_min k nkey
          have hpeq : cpl k nkey = nkey.length := by omega
          have hlt : nkey.length < k.length := by omega
          simp only [Node.wf]
          exact wfGo_insertGo nch _ _ v hgo (head?_drop_getD k _ (by omega))

theorem wfGo_insertGo {α : Type} : ∀ (ch : Children α) (c : Char) (k : List Char) (v : α),
    Children.wfGo ch = true → k.head? = some c →
    Children.wfGo (Children.insertGo ch c k v) = true
  | .nil, c, k, v => by
    intro _ hh
    simp [Children.insertGo, Children.wfGo, Children.hasChar, Node.wf, Node.key, hh]
  | .cons c' n rest, c, k, v => by
    intro hwf hh
    simp only [Children.wfGo, Bool.and_eq_true, Bool.not_eq_true',
      decide_eq_true_eq] at hwf
    obtain ⟨⟨⟨hhead, hchar⟩, hnwf⟩, hrest⟩ := hwf
    simp only [Children.insertGo]
    by_cases h : c' = c
    · subst h
      have hpos : 1 ≤ cpl k n.key :=
        cpl_pos_of_head_eq k n.key c' hh hhead
      have hres := wf_insert n k v hnwf (Or.inr hpos)
      simp only [Children.wfGo, Bool.and_eq_true, Bool.not_eq_true',
        decide_eq_true_eq]
      exact ⟨⟨⟨by rw [hres.2.1 hpos, hhead], hchar⟩, hres.1⟩, hrest⟩
    · rw [if_neg h]
      simp only [Children.wfGo, Bool.and_eq_true, Bool.not_eq_true',
        decide_eq_true_eq]
      refine ⟨⟨⟨hhead, ?_⟩, hnwf⟩, wfGo_insertGo rest c k v hrest hh⟩
      rw [hasChar_insertGo rest c k v c', hchar]
      simp only [Bool.false_or]
      exact beq_eq_false_iff_ne.mpr (fun he => h he.symm)

end

theorem wf_foldl_insert {α : Type} (ps : List (List Char × α)) (t : Node α)
    (hwf : t.wf = true) (hk : t.key = []) :
    (ps.foldl (fun a p => a.insert p.1 p.2) t).wf = true ∧
      (ps.foldl (fun a p => a.insert p.1 p.2) t).key = [] := by
  induction ps generalizing t with
  | nil => exact ⟨hwf, hk⟩
  | cons p ps ih =>
    have h := wf_insert t p.1 p.2 hwf (Or.inl hk)
    exact ih (t.insert p.1 p.2) h.1 (h.2.2 hk)

/-- Claim C8: every trie reachable by a sequence of insertions from the
fresh empty trie satisfies, at every node, that each child is stored in
the children dictionary under the first character of its key segment and
that no two children share a first character (the predicate `Node.wf`,
which recurses through every node). -/
theorem c8_children_invariant {α : Type} (ps : List (List Char × α)) :
    (fromPairs ps).wf = true :=
  (wf_foldl_insert ps (emptyTrie α) rfl rfl).1

/-- Claim C7: inserting `v1` and then `v2` under the same key `k` into a
fresh trie makes `find k` return `[v1, v2]`, preserving insertion
order. -/
theorem c7_duplicate_key_order {α : Type} (k : List Char) (v1 v2 : α) :
    (((emptyTrie α).insert k v1).insert k v2).find k = [v1, v2] := by
  cases k with
  | nil => rfl
  | cons c ks =>
    simp [emptyTrie, Node.insert, cpl, Children.insertGo, Node.find, cpl_self,
      Children.findIn]

/-! Error-freedom (claim C9): `insert` and `find` mirrored with every
Python string subscript (`key[index]`, `self.key[index]`) made a fallible
`List.get?` access, so that an out-of-range index — the only way either
method could fail — surfaces as `none`. -/

mutual

/-- The `insert` method with explicit fallible index accesses at the four
`[index]` sites of the Python source. -/
def Node.insertE {α : Type} : Node α → List Char → α → Option (Node α)
  | .mk nkey nvals nch, k, v =>
    let p := cpl k nkey
    if p < min k.length nkey.length then
      match k.get? p, nkey.get? p with
      | some ck, some cn =>
        some (Node.mk (nkey.take p) []
          (Children.cons ck (Node.mk (k.drop p) [v] Children.nil)
            (Children.cons cn (Node.mk (nkey.drop p) nvals nch) Children.nil)))
      | _, _ => none
    else if k.length = nkey.length then
      some (Node.mk nkey (nvals ++ [v]) nch)
    else if k.length < nkey.length then
      match nkey.get? p with
      | some cn =>
        some (Node.mk k [v]
          (Children.cons cn (Node.mk (nkey.drop p) nvals nch) Children.nil))
      | none => none
    else
      match k.get? p with
      | some ck => (Children.insertGoE nch ck (k.drop p) v).map (Node.mk nkey nvals)
      | none => none

def Children.insertGoE {α : Type} : Children α → Char → List Char → α → Option (Children α)
  | .nil, c, k, v => some (Children.cons c (Node.mk k [v] Children.nil) Children.nil)
  | .cons c' n rest, c, k, v =>
    if c' = c then (n.insertE k v).map (fun n' => Children.cons c' n' rest)
    else (Children.insertGoE rest c k v).map (Children.cons c' n)

end

mutual

/-- The `find` method with an explicit fallible index access at the
`key[index]` site of the Python source; all miss branches return the
empty list, not an error. -/
def Node.findE {α : Type} : Node α → List Char → Option (List α)
  | .mk nkey nvals nch, k =>
    if k.length = 0 then some nvals
    else
      let p := cpl k nkey
      if p < min k.length nkey.length then some []
      else if k.length ≤ nkey.length then some nvals
      else
        match k.get? p with
        | some ck => Children.findInE nch ck (k.drop p)
        | none => none

def Children.findInE {α : Type} : Children α → Char → List Char → Option (List α)
  | .nil, _, _ => some []
  | .cons c' n rest, c, k =>
    if c' = c then n.findE k else Children.findInE rest c k

end

theorem get?_eq_some_getD (l : List Char) (p : Nat) (h : p < l.length) :
    l.get? p = some (l.getD p 'a') := by
  induction l generalizing p with
  | nil => simp at h
  | cons c cs ih =>
    cases p with
    | zero => simp
    | succ q =>
      simp only [List.get?_cons_succ, List.getD_cons_succ]
      exact ih q (by simpa using h)

mutual

theorem insertE_eq {α : Type} : ∀ (n : Node α) (k : List Char) (v : α),
    Node.insertE n k v = some (Node.insert n k v)
  | .mk nkey nvals nch, k, v => by
    simp only [Node.insertE, Node.insert]
    by_cases h1 : cpl k nkey < min k.length nkey.length
    · rw [if_pos h1, if_pos h1]
      have hpk : cpl k nkey < k.length := lt_of_lt_of_le h1 (Nat.min_le_left _ _)
      have hpn : cpl k nkey < nkey.length := lt_of_lt_of_le h1 (Nat.min_le_right _ _)
      rw [get?_eq_some_getD k _ hpk, get?_eq_some_getD nkey _ hpn]
    · rw [if_neg h1, if_neg h1]
      by_cases h2 : k.length = nkey.length
      · rw [if_pos h2, if_pos h2]
      · rw [if_neg h2, if_neg h2]
        have hple := cpl_le_min k nkey
        have hpeq : cpl k nkey = min k.length nkey.length := by omega
        by_cases h3 : k.length < nkey.length
        · rw [if_pos h3, if_pos h3]
          rw [get?_eq_some_getD nkey _ (by omega)]
        · rw [if_neg h3, if_neg h3]
          rw [get?_eq_some_getD k _ (by omega)]
          show Option.map (Node.mk nkey nvals)
              (Children.insertGoE nch (k.getD (cpl k nkey) 'a') (k.drop (cpl k nkey)) v) = _
          rw [insertGoE_eq nch (k.getD (cpl k nkey) 'a') (k.drop (cpl k nkey)) v]
          rfl

theorem insertGoE_eq {α : Type} : ∀ (ch : Children α) (c : Char) (k : List Char) (v : α),
    Children.insertGoE ch c k v = some (Children.insertGo ch c k v)
  | .nil, c, k, v => rfl
  | .cons c' n rest, c, k, v => by
    simp only [Children.insertGoE, Children.insertGo]
    by_cases h : c' = c
    · rw [if_pos h, if_pos h, insertE_eq n k v]
      rfl
    · rw [if_neg h, if_neg h, insertGoE_eq rest c k v]
      rfl

end

mutual

theorem findE_eq {α : Type} : ∀ (n : Node α) (k : List Char),
    Node.findE n k = some (Node.find n k)
  | .mk nkey nvals nch, k => by
    simp only [Node.findE, Node.find]
    by_cases h0 : k.length = 0
    · rw [if_pos h0, if_pos h0]
    · rw [if_neg h0, if_neg h0]
      by_cases h1 : cpl k nkey < min k.length nkey.length
      · rw [if_pos h1, if_pos h1]
      · rw [if_neg h1, if_neg h1]
        by_cases h2 : k.length ≤ nkey.length
        · rw [if_pos h2, if_pos h2]
        · rw [if_neg h2, if_neg h2]
          have hple := cpl_le_min k nkey
          rw [get?_eq_some_getD k _ (by omega)]
          exact findInE_eq nch (k.getD (cpl k nkey) 'a') (k.drop (cpl k nkey))

theorem findInE_eq {α : Type} : ∀ (ch : Children α) (c : Char) (k : List Char),
    Children.findInE ch c k = some (Children.findIn ch c k)
  | .nil, c, k => rfl
  | .cons c' n rest, c, k => by
    simp only [Children.findInE, Children.findIn]
    by_cases h : c' = c
    · rw [if_pos h, if_pos h]
      exact findE_eq n k
    · rw [if_neg h, if_neg h]
      exact findInE_eq rest c k

end

/-- Counterexample to claim C9: in the trie built from the single pair
("xy","7"), the key "x" was never inserted (it is absent), yet `find`
returns the non-empty list ["7"], not an empty sequence. -/
theorem c9_absent_key_counterexample :
    (fromPairs [("xy".toList, "7")]).find "x".toList = ["7"] ∧
    "x".toList ≠ "xy".toList := by
  decide

/-- Claim C9 as amended: for every trie, key (including the empty one)
and value, `insert` returns normally — every index access of its body is
in range, so the fallible mirror `insertE` always returns `some` of the
total result — and `find` likewise never signals failure, returning a
list whose miss branches are empty; however that list can be non-empty
for an absent key that is a strict prefix of a node's segment. -/
theorem c9_no_failure {α : Type} (n : Node α) (k : List Char) (v : α) :
    Node.insertE n k v = some (n.insert k v) ∧
    Node.findE n k = some (n.find k) :=
  ⟨insertE_eq n k v, findE_eq n k⟩

/-!
Frame property of `prefix_map` (claim C10).  `find`, `size` and `__len__`
perform no assignment in the Python source, so the pure translations
above are functions of the node alone and repeating them trivially
returns equal results; the one query that mutates anything is
`prefix_map`, whose `mapping[key_largest].extend(self.values)` extends a
Python list in place.  To settle where that mutation lands, `prefix_map`
is re-embedded with the list heap made explicit: nodes hold a reference
(store index) to their values list, the leaf case allocates a fresh cell
for the `values[1:]` slice copy, and the extend step overwrites the cell
selected by the `key_largest` scan.  The frame theorem shows that every
cell that existed before the call — in particular every node's stored
values list — is unchanged, and that every cell referenced by the
returned mapping is freshly allocated.
-/

mutual

/-- A trie node with its values list held by reference into an explicit
store of lists. -/
inductive HNode : Type where
  | mk : (key : List Char) → (valuesRef : Nat) → (children : HChildren) → HNode

/-- Children of a heap-modelled node, in dictionary insertion order. -/
inductive HChildren : Type where
  | nil : HChildren
  | cons : Char → HNode → HChildren → HChildren

end

/-- The explicit heap of Python list objects: cell `i` holds the list's
current contents. -/
abbrev Store := List (List String)

/-- Length of the list in cell `r` (used by the `key_largest` scan). -/
def refLen (st : Store) (r : Nat) : Nat := (st[r]?.getD []).length

/-- The `key_largest` scan over a mapping whose values are list
references, reading each list's length from the store. -/
def selRefGo (st : Store) : List (String × Nat) → Nat → Nat → Nat
  | [], best, _ => best
  | (_, r) :: rest, best, n =>
    if n < refLen st r then selRefGo st rest r (refLen st r)
    else selRefGo st rest best n

/-- The reference selected by the `key_largest` scan (`none` on an empty
mapping, where the Python code raises `KeyError`). -/
def selRefH (st : Store) : List (String × Nat) → Option Nat
  | [] => none
  | (_, r) :: rest => some (selRefGo st rest r (refLen st r))

mutual

/-- `prefix_map` over the explicit store: the leaf case reads the node's
values cell and allocates a fresh cell holding the `values[1:]` slice
copy; the internal case merges the children's mappings (which hold
references), selects the reference of the first longest list, and
extends that cell in place with the node's own values list. -/
def HNode.pmH : HNode → Store → Option (List (String × Nat) × Store)
  | .mk _ r hch, st =>
    match hch with
    | .nil =>
      match st[r]? with
      | none => none
      | some [] => none
      | some (v :: vs) => some ([(v, st.length)], st ++ [vs])
    | .cons _ _ _ =>
      match HChildren.pmMergeH hch st [] with
      | none => none
      | some (m, st1) =>
        match selRefH st1 m with
        | none => none
        | some rk =>
          match st1[r]?, st1[rk]? with
          | some vals, some lk => some (m, st1.set rk (lk ++ vals))
          | _, _ => none

/-- The merge loop of the store-level `prefix_map`, threading the store
through the children. -/
def HChildren.pmMergeH : HChildren → Store → List (String × Nat) →
    Option (List (String × Nat) × Store)
  | .nil, st, acc => some (acc, st)
  | .cons _ n rest, st, acc =>
    match n.pmH st with
    | none => none
    | some (m, st1) => HChildren.pmMergeH rest st1 (dictUpdate acc m)

end

theorem mem_dictSet {κ β : Type} [DecidableEq κ] (m : List (κ × β)) (k : κ) (v : β)
    (e : κ × β) (h : e ∈ dictSet m k v) : e ∈ m ∨ e = (k, v) := by
  induction m with
  | nil =>
    simp [dictSet] at h
    exact Or.inr h
  | cons e0 rest ih =>
    obtain ⟨k0, v0⟩ := e0
    by_cases hk : k0 = k
    · simp only [dictSet, if_pos hk, List.mem_cons] at h
      rcases h with h | h
      · exact Or.inr (by simp [h, hk])
      · exact Or.inl (List.mem_cons_of_mem _ h)
    · simp only [dictSet, if_neg hk, List.mem_cons] at h
      rcases h with h | h
      · exact Or.inl (by simp [h])
      · rcases ih h with h' | h'
        · exact Or.inl (List.mem_cons_of_mem _ h')
        · exact Or.inr h'

theorem mem_dictUpdate {κ β : Type} [DecidableEq κ] (acc m : List (κ × β))
    (e : κ × β) (h : e ∈ dictUpdate acc m) : e ∈ acc ∨ e ∈ m := by
  induction m generalizing acc with
  | nil => exact Or.inl h
  | cons x rest ih =>
    simp only [dictUpdate, List.foldl_cons] at h
    rcases ih (dictSet acc x.1 x.2) h with h' | h'
    · rcases mem_dictSet acc x.1 x.2 e h' with h'' | h''
      · exact Or.inl h''
      · exact Or.inr (by simp [h''])
    · exact Or.inr (List.mem_cons_of_mem _ h')

theorem selRefGo_mem (st : Store) : ∀ (l : List (String × Nat)) (best n : Nat),
    selRefGo st l best n = best ∨ ∃ e ∈ l, selRefGo st l best n = (e.2 : Nat)
  | [], best, n => Or.inl rfl
  | (k0, r0) :: rest, best, n => by
    simp only [selRefGo]
    by_cases h : n < refLen st r0
    · rw [if_pos h]
      rcases selRefGo_mem st rest r0 (refLen st r0) with h' | ⟨e, he, h'⟩
      · exact Or.inr ⟨(k0, r0), List.mem_cons_self _ _, h'⟩
      · exact Or.inr ⟨e, List.mem_cons_of_mem _ he, h'⟩
    · rw [if_neg h]
      rcases selRefGo_mem st rest best n with h' | ⟨e, he, h'⟩
      · exact Or.inl h'
      · exact Or.inr ⟨e, List.mem_cons_of_mem _ he, h'⟩

theorem selRefH_mem (st : Store) (m : List (String × Nat)) (rk : Nat)
    (h : selRefH st m = some rk) : ∃ e ∈ m, (e.2 : Nat) = rk := by
  cases m with
  | nil => simp [selRefH] at h
  | cons e0 rest =>
    obtain ⟨k0, r0⟩ := e0
    simp only [selRefH, Option.some.injEq] at h
    rcases selRefGo_mem st rest r0 (refLen st r0) with h' | ⟨e, he, h'⟩
    · exact ⟨(k0, r0), List.mem_cons_self _ _, by rw [← h, h']⟩
    · exact ⟨e, List.mem_cons_of_mem _ he, by rw [← h, h']⟩

mutual

theorem pmH_frame : ∀ (n : HNode) (st : Store) (m : List (String × Nat)) (st' : Store),
    HNode.pmH n st = some (m, st') →
    (∀ i, i < st.length → st'[i]? = st[i]?) ∧ st.length ≤ st'.length ∧
      (∀ e ∈ m, st.length ≤ (e.2 : Nat))
  | .mk key r hch, st, m, st' => by
    intro h
    cases hch with
    | nil =>
      simp only [HNode.pmH] at h
      cases hr : st[r]? with
      | none => simp only [hr] at h; exact Option.noConfusion h
      | some vs =>
        simp only [hr] at h
        cases vs with
        | nil => simp at h
        | cons v vs =>
          simp only [Option.some.injEq, Prod.mk.injEq] at h
          obtain ⟨hm, hst⟩ := h
          subst hm hst
          refine ⟨?_, by simp, ?_⟩
          · intro i hi
            exact List.getElem?_append_left hi
          · intro e he
            simp only [List.mem_singleton] at he
            simp [he]
    | cons c0 n0 rest0 =>
      simp only [HNode.pmH] at h
      cases hmerge : HChildren.pmMergeH (HChildren.cons c0 n0 rest0) st [] with
      | none => simp only [hmerge] at h; exact Option.noConfusion h
      | some pr =>
        obtain ⟨m1, st1⟩ := pr
        simp only [hmerge] at h
        have hf := pmMergeH_frame (HChildren.cons c0 n0 rest0) st [] m1 st1 hmerge
        cases hsel : selRefH st1 m1 with
        | none => simp only [hsel] at h; exact Option.noConfusion h
        | some rk =>
          simp only [hsel] at h
          cases hv : st1[r]? with
          | none => simp only [hv] at h; exact Option.noConfusion h
          | some vals =>
            simp only [hv] at h
            cases hlk : st1[rk]? with
            | none => simp only [hlk] at h; exact Option.noConfusion h
            | some lk =>
              simp only [hlk] at h
              simp only [Option.some.injEq, Prod.mk.injEq] at h
              obtain ⟨hm, hst⟩ := h
              subst hm hst
              have hrk : st.length ≤ rk := by
                obtain ⟨e, hem, herk⟩ := selRefH_mem st1 m1 rk hsel
                have := (hf.2.2 e hem).resolve_left (by simp)
                omega
              refine ⟨?_, ?_, ?_⟩
              · intro i hi
                rw [List.getElem?_set_ne (by omega : rk ≠ i)]
                exact hf.1 i hi
              · rw [List.length_set]
                exact hf.2.1
              · intro e he
                exact (hf.2.2 e he).resolve_left (by simp)

theorem pmMergeH_frame : ∀ (hch : HChildren) (st : Store)
    (acc m : List (String × Nat)) (st' : Store),
    HChildren.pmMergeH hch st acc = some (m, st') →
    (∀ i, i < st.length → st'[i]? = st[i]?) ∧ st.length ≤ st'.length ∧
      (∀ e ∈ m, e ∈ acc ∨ st.length ≤ (e.2 : Nat))
  | .nil, st, acc, m, st' => by
    intro h
    simp only [HChildren.pmMergeH, Option.some.injEq, Prod.mk.injEq] at h
    obtain ⟨hm, hst⟩ := h
    subst hm hst
    exact ⟨fun i _ => rfl, le_rfl, fun e he => Or.inl he⟩
  | .cons c0 n0 rest0, st, acc, m, st' => by
    intro h
    simp only [HChildren.pmMergeH] at h
    cases hp : n0.pmH st with
    | none => simp only [hp] at h; exact Option.noConfusion h
    | some pr =>
      obtain ⟨m1, st1⟩ := pr
      simp only [hp] at h
      have h1 := pmH_frame n0 st m1 st1 hp
      have h2 := pmMergeH_frame rest0 st1 (dictUpdate acc m1) m st' h
      refine ⟨?_, le_trans h1.2.1 h2.2.1, ?_⟩
      · intro i hi
        rw [h2.1 i (by omega), h1.1 i hi]
      · intro e he
        rcases h2.2.2 e he with hacc | hge
        · rcases mem_dictUpdate acc m1 e hacc with ha | hm1
          · exact Or.inl ha
          · exact Or.inr (h1.2.2 e hm1)
        · exact Or.inr (le_trans h1.2.1 hge)

end

/-- Claim C10: the query operations do not modify the trie.  `find`,
`size` and `__len__` perform no assignment, so their translations are
pure functions of the node; for `prefix_map`, whose
`mapping[key_largest].extend(self.values)` does mutate a list in place,
the store-level run leaves every pre-existing heap cell — in particular
every node's stored values list — exactly as it was, because every
reference in the computed mapping (including the extended one) points to
a freshly allocated cell. -/
theorem c10_prefix_map_frame (n : HNode) (st : Store) (m : List (String × Nat))
    (st' : Store) (h : HNode.pmH n st = some (m, st')) :
    (∀ r, r < st.length → st'[r]? = st[r]?) ∧
    (∀ e ∈ m, st.length ≤ (e.2 : Nat)) :=
  ⟨(pmH_frame n st m st' h).1, (pmH_frame n st m st' h).2.2⟩

/-- Witness for `c10_prefix_map_frame`: a single leaf whose values cell 0
holds two values; `prefix_map` allocates the slice copy in a fresh cell 1
and leaves cell 0 untouched. -/
theorem c10_prefix_map_frame_witness :
    HNode.pmH (HNode.mk [] 0 HChildren.nil) [["x", "y"]] =
      some ([("x", 1)], [["x", "y"], ["y"]]) ∧
    ([["x", "y"], ["y"]] : Store)[0]? = ([["x", "y"]] : Store)[0]? :=
  ⟨by decide,
    (c10_prefix_map_frame (HNode.mk [] 0 HChildren.nil) [["x", "y"]]
      [("x", 1)] [["x", "y"], ["y"]] (by decide)).1 0 (by decide)⟩

end SkbioTrie
